import Mathlib

/-!
# Verification of the DAGHAR data-generation pipeline

The repository's notebook (`Dataset_v3/Data_processing/Data_generator.ipynb`)
imports the balancing / splitting operations (`SplitGuaranteeingAllClassesPerSplit`,
`BalanceToMinimumClass`, `BalanceToMinimumClassAndUser`, `FilterByCommonRows`)
from the module `steps`, and the reader `read_hiacc_smartphone` from the module
`teste`; those modules are part of the project but their sources are not in the
repository snapshot, so every operation below is modelled from the design
specification.  The notebook itself fixes the random seeds and records the
observed `df_root` table (198000 rows × 13 columns), which is embedded directly.

Tables are modelled as lists of rows; a `Row` carries the metadata columns the
balancing and splitting operations consult (`user`, `trial`, `activity_code`).
Seeded uniform subsampling is modelled by a deterministic pseudo-random
selection driven by a linear congruential generator, which is all the claims
in scope depend on (sizes, membership, and determinism — never the particular
randomly chosen indices).
-/

namespace DAGHAR

/-- One row of the aggregated dataset: the metadata columns that the balancing
and splitting operations consult. -/
structure Row where
  user : Nat
  trial : Nat
  activity_code : Int
deriving DecidableEq, Repr

/-- Step of the linear congruential generator driving seeded subsampling. -/
def lcgNext (s : Nat) : Nat := (s * 1103515245 + 12345) % 2 ^ 31

/-- Modelled from the spec: deterministic seeded subsampling (the spec's
"subsample exactly m rows uniformly at random (a fixed, externally supplied
random seed makes this deterministic)"; the concrete generator lives in the
missing `steps` module).  Picks `k` elements without replacement, each chosen
by the current generator state. -/
def sampleRows : Nat → Nat → List Row → List Row
  | _, 0, _ => []
  | _, _ + 1, [] => []
  | s, k + 1, a :: rest =>
      let i := s % (a :: rest).length
      (a :: rest).getD i a :: sampleRows (lcgNext s) k ((a :: rest).eraseIdx i)

/-- The distinct activity codes of a table, in order of first appearance. -/
def codesOf (t : List Row) : List Int := (t.map (·.activity_code)).dedup

/-- The distinct users of a table, in order of first appearance. -/
def usersOf (t : List Row) : List Nat := (t.map (·.user)).dedup

/-- The rows of a table carrying a given activity code. -/
def classGroup (t : List Row) (c : Int) : List Row :=
  t.filter (fun r => r.activity_code = c)

/-- The distinct users among the rows of a given activity code. -/
def usersOfCode (t : List Row) (c : Int) : List Nat :=
  ((classGroup t c).map (·.user)).dedup

/-- The distinct (activity code, user) pairs of a table, in order of first
appearance. -/
def pairsOf (t : List Row) : List (Int × Nat) :=
  (t.map (fun r => (r.activity_code, r.user))).dedup

/-- The rows of a table with a given (activity code, user) pair. -/
def pairGroup (t : List Row) (p : Int × Nat) : List Row :=
  t.filter (fun r => (r.activity_code, r.user) = p)

/-- Minimum activity-code group size of a table (0 for the empty table). -/
def minClassSize (t : List Row) : Nat :=
  ((codesOf t).map (fun c => (classGroup t c).length)).foldr min t.length

/-- Minimum (activity code, user) group size of a table (0 for the empty
table). -/
def minPairSize (t : List Row) : Nat :=
  ((pairsOf t).map (fun p => (pairGroup t p).length)).foldr min t.length

/-- The fatal pipeline errors: an empty required class, or a class that cannot
be distributed over all three splits without sharing a user. -/
inductive FatalError where
  | insufficientData
  | unsatisfiableSplit
deriving DecidableEq, Repr

deriving instance DecidableEq for Except

/-- Keep a group whole when its size is at most `m`, otherwise subsample
exactly `m` of its rows with the seeded generator. -/
def balanceGroup (seed m : Nat) (g : List Row) : List Row :=
  if m < g.length then sampleRows seed m g else g

/-- The class-balanced table: the per-class groups, each subsampled down to
the minimum class size, concatenated in code order. -/
def balancedClassTable (seed : Nat) (t : List Row) : List Row :=
  ((codesOf t).map
    (fun c => balanceGroup seed (minClassSize t) (classGroup t c))).flatten

/-- Modelled from the spec: `BalanceToMinimumClass` from the missing `steps`
module.  Groups rows by `activity_code`, takes `m` to be the minimum group
size over the codes present, keeps groups already at size `m` whole and
subsamples larger groups down to exactly `m` rows; fails with
`InsufficientDataError` when some class of the externally supplied domain has
zero rows. -/
def BalanceToMinimumClass (classes : List Int) (seed : Nat) (t : List Row) :
    Except FatalError (List Row) :=
  if classes.any (fun c => (classGroup t c).isEmpty) then
    .error .insufficientData
  else
    .ok (balancedClassTable seed t)

/-- Modelled from the spec: `BalanceToMinimumClassAndUser` from the missing
`steps` module.  Groups rows by the pair (activity_code, user), takes `m` to
be the minimum non-empty pair-group size, subsamples pairs larger than `m`
down to exactly `m` rows and keeps pairs of size at most `m` exactly as they
are; no pair is upsampled or dropped. -/
def BalanceToMinimumClassAndUser (seed : Nat) (t : List Row) : List Row :=
  ((pairsOf t).map
    (fun p => balanceGroup seed (minPairSize t) (pairGroup t p))).flatten

/-! ## Split generation -/

/-- Intermediate state of the user-granularity split assignment: the users
already assigned to each of the three splits, and the users still
unassigned. -/
structure SState where
  s0 : List Nat
  s1 : List Nat
  s2 : List Nat
  un : List Nat
deriving DecidableEq, Repr

/-- Total number of rows contributed by a set of users. -/
def rowsOfUsers (t : List Row) (us : List Nat) : Nat :=
  (t.filter (fun r => r.user ∈ us)).length

/-- Insert an activity code into a list sorted by a scarcity key. -/
def insertByKey (key : Int → Nat) (c : Int) : List Int → List Int
  | [] => [c]
  | d :: ds => if key c ≤ key d then c :: d :: ds else d :: insertByKey key c ds

/-- Sort activity codes by a scarcity key, ascending (insertion sort). -/
def sortByKey (key : Int → Nat) (l : List Int) : List Int :=
  l.foldr (insertByKey key) []

/-- Ensure one split contains a user carrying class `cs` (the carriers of the
class being processed): if it already does, leave it alone; otherwise move the
first unassigned carrier into it, failing when none is left. -/
def coverOne (cs : List Nat) (sp un : List Nat) : Option (List Nat × List Nat) :=
  if sp.any (fun u => u ∈ cs) then some (sp, un)
  else
    match un.find? (fun u => u ∈ cs) with
    | none => none
    | some u => some (sp ++ [u], un.erase u)

/-- Ensure all three splits contain a user carrying the class whose carrier
list is `cs`. -/
def assignClass (cs : List Nat) (st : SState) : Option SState :=
  match coverOne cs st.s0 st.un with
  | none => none
  | some (s0, un) =>
    match coverOne cs st.s1 un with
    | none => none
    | some (s1, un') =>
      match coverOne cs st.s2 un' with
      | none => none
      | some (s2, un'') => some ⟨s0, s1, s2, un''⟩

/-- Walk the classes (in the order given) and make every split contain each
class, moving unassigned carriers as needed. -/
def coverClasses (t : List Row) : List Int → SState → Option SState
  | [], st => some st
  | c :: cs, st =>
      match assignClass (usersOfCode t c) st with
      | none => none
      | some st' => coverClasses t cs st'

/-- Deficit of a split with respect to its target proportion: target share of
the table's rows minus the rows currently assigned, scaled to integers. -/
def deficit (t : List Row) (total p : Nat) (sp : List Nat) : Int :=
  (p : Int) * (t.length : Int) - (rowsOfUsers t sp : Int) * (total : Int)

/-- Assign each remaining unassigned user to the split with the largest
current deficit (a documented deterministic largest-remainder fill rule). -/
def fillUsers (t : List Row) (p0 p1 p2 : Nat) :
    List Nat → List Nat → List Nat → List Nat → List Nat × List Nat × List Nat
  | [], s0, s1, s2 => (s0, s1, s2)
  | u :: us, s0, s1, s2 =>
      let total := p0 + p1 + p2
      let d0 := deficit t total p0 s0
      let d1 := deficit t total p1 s1
      let d2 := deficit t total p2 s2
      if d1 ≤ d0 ∧ d2 ≤ d0 then fillUsers t p0 p1 p2 us (s0 ++ [u]) s1 s2
      else if d2 ≤ d1 then fillUsers t p0 p1 p2 us s0 (s1 ++ [u]) s2
      else fillUsers t p0 p1 p2 us s0 s1 (s2 ++ [u])

/-- Modelled from the spec: `SplitGuaranteeingAllClassesPerSplit` from the
missing `steps` module.  Fails with `UnsatisfiableSplitError` when a class has
fewer distinct users than the three splits; otherwise walks the classes in
increasing order of scarcity (row count), assigns an unassigned carrier of the
class to every split still missing it (failing when the greedy assignment gets
stuck), then fills the remaining users to approximate the target proportions
`(p0, p1, p2)`, and returns the rows of each split's users. -/
def SplitGuaranteeingAllClassesPerSplit (p0 p1 p2 : Nat) (t : List Row) :
    Except FatalError (List Row × List Row × List Row) :=
  if (codesOf t).any (fun c => (usersOfCode t c).length < 3) then
    .error .unsatisfiableSplit
  else
    match coverClasses t
        (sortByKey (fun c => (classGroup t c).length) (codesOf t))
        ⟨[], [], [], usersOf t⟩ with
    | none => .error .unsatisfiableSplit
    | some st =>
        match fillUsers t p0 p1 p2 st.un st.s0 st.s1 st.s2 with
        | (u0, u1, u2) =>
            .ok (t.filter (fun r => r.user ∈ u0),
                 t.filter (fun r => r.user ∈ u1),
                 t.filter (fun r => r.user ∈ u2))

/-! ## Row-set intersection -/

/-- Modelled from the spec: `FilterByCommonRows` from the missing `steps`
module.  Given two tables sharing a common key, returns both tables restricted
to the rows whose key values occur in both, preserving each table's own row
order. -/
def FilterByCommonRows (key : α → Nat) (t1 t2 : List α) : List α × List α :=
  (t1.filter (fun r => key r ∈ t2.map key),
   t2.filter (fun r => key r ∈ t1.map key))

/-! ## Stream alignment -/

/-- One sample of a sensor modality: a server timestamp and a channel value. -/
structure Sample where
  ts : Nat
  val : Int
deriving DecidableEq, Repr

/-- Distance between two timestamps. -/
def tdist (a b : Nat) : Nat := max a b - min a b

/-- Scan a modality's samples keeping the current best match for the
reference timestamp `t`; a later sample replaces the best only when strictly
closer, so ties keep the earlier sample. -/
def nearestAux (t : Nat) (best : Sample) : List Sample → Sample
  | [] => best
  | s :: rest =>
      nearestAux t (if tdist t s.ts < tdist t best.ts then s else best) rest

/-- The sample of a non-empty modality nearest to the reference timestamp,
ties broken toward the earlier sample. -/
def nearestSample (t : Nat) : List Sample → Sample
  | [] => ⟨0, 0⟩
  | s :: rest => nearestAux t s rest

/-- One aligned row: the reference modality's sample together with the matched
sample (own timestamp and value) of every other modality. -/
structure ARow where
  ref : Sample
  matched : List Sample
deriving DecidableEq, Repr

/-- Modelled from the spec: the `StreamAligner` merge (the notebook's reader
`read_hiacc_smartphone` in the missing `teste` module performs it).  Keyed on
the reference modality's timestamps; for each of them selects from every other
modality the sample whose timestamp is closest (ties toward the earlier
sample), recording both timestamps; drops the session (returns `none`) when a
non-reference modality is empty; never synthesizes a sample. -/
def StreamAligner (ref : List Sample) (mods : List (List Sample)) :
    Option (List ARow) :=
  if mods.any List.isEmpty then none
  else some (ref.map (fun r => ⟨r, mods.map (fun m => nearestSample r.ts m)⟩))

/-- The gaps between consecutive reference timestamps. -/
def refGaps (ref : List Sample) : List Nat :=
  (ref.zip ref.tail).map (fun q => tdist q.1.ts q.2.ts)

/-- The maximum gap between consecutive reference timestamps. -/
def maxRefGap (ref : List Sample) : Nat := (refGaps ref).foldr max 0

/-! ## Sessions, per-session recovery and fatal errors -/

/-- The per-session alignment failures: a metadata mismatch between the
modalities of one session, or an empty non-reference modality. -/
inductive AlignError where
  | sessionAlignment
  | emptyModality
deriving DecidableEq, Repr

/-- The session metadata carried by each modality's file group. -/
structure MMeta where
  user : Nat
  activity_code : Int
deriving DecidableEq, Repr

/-- One recording session: the metadata as recorded by each modality, the
reference modality's series and the other modalities' series. -/
structure Session where
  metas : List MMeta
  ref : List Sample
  mods : List (List Sample)
deriving Repr

/-- Whether all modalities of a session agree on the session metadata. -/
def metaConsistent (s : Session) : Bool :=
  match s.metas with
  | [] => true
  | m :: rest => rest.all (fun m' => m' = m)

/-- Modelled from the spec: per-session alignment.  Fails with
`SessionAlignmentError` when the session's metadata disagrees between its
modalities, with an empty-modality drop otherwise when a non-reference
modality is empty, and aligns the streams on success. -/
def alignSession (s : Session) : Except AlignError (List ARow) :=
  if metaConsistent s then
    match StreamAligner s.ref s.mods with
    | none => .error .emptyModality
    | some rows => .ok rows
  else .error .sessionAlignment

/-- Modelled from the spec: `SessionAggregator`.  Concatenates the aligned
tables of the sessions; a session whose alignment fails is excluded and the
run continues (the aggregator is total). -/
def SessionAggregator (ss : List Session) : List ARow :=
  ss.foldr
    (fun s acc =>
      match alignSession s with
      | .ok rows => rows ++ acc
      | .error _ => acc) []

/-- Modelled from the spec: the balancing-then-splitting tail of the pipeline;
the fatal errors of either stage propagate to the caller unchanged. -/
def BalanceThenSplit (classes : List Int) (seed p0 p1 p2 : Nat) (t : List Row) :
    Except FatalError (List Row × List Row × List Row) :=
  match BalanceToMinimumClass classes seed t with
  | .error e => .error e
  | .ok b => SplitGuaranteeingAllClassesPerSplit p0 p1 p2 b

/-! ## The recorded `df_root` schema of `read_hiacc_smartphone` -/

/-- The column names of the `df_root` table returned by
`read_hiacc_smartphone`, exactly as recorded by the notebook's displayed
output (198000 rows × 13 columns). -/
def df_root_columns : List String :=
  ["timestamp-server-accel", "accel-x", "accel-y", "accel-z", "user",
   "pos", "trial", "activity code",
   "timestamp-server-gyro", "gyro-x", "gyro-y", "gyro-z", "user"]

/-! ## Concrete example tables -/

/-- An input table with three classes of sizes 100, 40 and 70 (the spec's
balancing example). -/
def exampleUnbalancedTable : List Row :=
  (List.range 100).map (fun i => Row.mk i 0 0) ++
  (List.range 40).map (fun i => Row.mk i 0 1) ++
  (List.range 70).map (fun i => Row.mk i 0 2)

/-! # Theorems -/

section Lemmas

theorem getD_mem {l : List Row} {i : Nat} (d : Row) (h : i < l.length) :
    l.getD i d ∈ l := by
  rw [List.getD_eq_getElem l d h]
  exact List.getElem_mem h

theorem sampleRows_length (s k : Nat) (l : List Row) :
    (sampleRows s k l).length = min k l.length := by
  induction k generalizing s l with
  | zero => simp [sampleRows]
  | succ k ih =>
    cases l with
    | nil => simp [sampleRows]
    | cons a rest =>
      rw [sampleRows]
      have hi : s % (a :: rest).length < (a :: rest).length :=
        Nat.mod_lt _ (by simp)
      simp only [List.length_cons, ih]
      rw [List.length_eraseIdx_of_lt (by simpa using hi)]
      simp only [List.length_cons]
      omega

theorem sampleRows_subset (s k : Nat) (l : List Row) :
    ∀ r ∈ sampleRows s k l, r ∈ l := by
  induction k generalizing s l with
  | zero => simp [sampleRows]
  | succ k ih =>
    cases l with
    | nil => simp [sampleRows]
    | cons a rest =>
      rw [sampleRows]
      intro r hr
      have hi : s % (a :: rest).length < (a :: rest).length :=
        Nat.mod_lt _ (by simp)
      rcases List.mem_cons.mp hr with h | h
      · exact h ▸ getD_mem a hi
      · exact (List.eraseIdx_sublist (a :: rest)
          (s % (a :: rest).length)).mem (ih _ _ r h)

theorem balanceGroup_length (seed m : Nat) (g : List Row) :
    (balanceGroup seed m g).length = min m g.length := by
  unfold balanceGroup
  split
  · rw [sampleRows_length]
  · omega

theorem balanceGroup_subset (seed m : Nat) (g : List Row) :
    ∀ r ∈ balanceGroup seed m g, r ∈ g := by
  unfold balanceGroup
  split
  · exact sampleRows_subset _ _ _
  · exact fun r hr => hr

theorem balanceGroup_of_le (seed m : Nat) (g : List Row) (h : g.length ≤ m) :
    balanceGroup seed m g = g := by
  unfold balanceGroup
  rw [if_neg (by omega)]

theorem foldr_min_le {l : List Nat} {x a : Nat} (hx : x ∈ l) :
    l.foldr min a ≤ x := by
  induction l with
  | nil => cases hx
  | cons b bs ih =>
    rcases List.mem_cons.mp hx with h | h
    · subst h; exact min_le_left _ _
    · exact le_trans (min_le_right _ _) (ih h)

theorem foldr_min_le_init (l : List Nat) (a : Nat) : l.foldr min a ≤ a := by
  induction l with
  | nil => exact le_refl a
  | cons b bs ih => exact le_trans (min_le_right _ _) ih

theorem foldr_min_mem {l : List Nat} {a : Nat} (hne : l ≠ [])
    (ha : ∀ x ∈ l, x ≤ a) : l.foldr min a ∈ l := by
  induction l with
  | nil => exact absurd rfl hne
  | cons b bs ih =>
    cases bs with
    | nil =>
      simp only [List.foldr]
      rw [min_eq_left (ha b (List.mem_singleton_self b))]
      exact List.mem_singleton_self b
    | cons c cs =>
      have hmem := ih (by simp) (fun x hx => ha x (List.mem_cons_of_mem b hx))
      rcases le_total b ((c :: cs).foldr min a) with h | h
      · rw [List.foldr_cons, min_eq_left h]; exact List.mem_cons_self b _
      · rw [List.foldr_cons, min_eq_right h]
        exact List.mem_cons_of_mem b hmem

theorem le_foldr_min {l : List Nat} {a b : Nat} (hb : b ≤ a)
    (h : ∀ x ∈ l, b ≤ x) : b ≤ l.foldr min a := by
  induction l with
  | nil => exact hb
  | cons c cs ih =>
    exact le_min (h c (List.mem_cons_self c cs))
      (ih (fun x hx => h x (List.mem_cons_of_mem c hx)))

theorem mem_classGroup {t : List Row} {c : Int} {r : Row} :
    r ∈ classGroup t c ↔ r ∈ t ∧ r.activity_code = c := by
  simp [classGroup]

theorem mem_pairGroup {t : List Row} {p : Int × Nat} {r : Row} :
    r ∈ pairGroup t p ↔ r ∈ t ∧ (r.activity_code, r.user) = p := by
  simp [pairGroup]

theorem flatten_filter_not_mem {κ : Type} [DecidableEq κ] (k : Row → κ)
    (G : κ → List Row) (hG : ∀ d, ∀ r ∈ G d, k r = d) (l : List κ) (c : κ)
    (hc : c ∉ l) :
    ((l.map G).flatten.filter (fun r => k r = c)) = [] := by
  rw [List.filter_eq_nil_iff]
  intro r hr
  rw [List.mem_flatten] at hr
  obtain ⟨gl, hgl, hrgl⟩ := hr
  obtain ⟨d, hd, rfl⟩ := List.mem_map.mp hgl
  have := hG d r hrgl
  simp only [decide_eq_true_eq]
  intro hk
  have hcd : c = d := by rw [← hk, this]
  exact hc (hcd ▸ hd)

theorem flatten_filter_mem {κ : Type} [DecidableEq κ] (k : Row → κ)
    (G : κ → List Row) (hG : ∀ d, ∀ r ∈ G d, k r = d) (l : List κ) (c : κ)
    (hl : l.Nodup) (hc : c ∈ l) :
    ((l.map G).flatten.filter (fun r => k r = c)) = G c := by
  induction l with
  | nil => cases hc
  | cons d ds ih =>
    simp only [List.map_cons, List.flatten_cons, List.filter_append]
    rcases List.mem_cons.mp hc with h | h
    · subst h
      rw [List.filter_eq_self.mpr
        (fun r hr => by simp [hG c r hr]),
        flatten_filter_not_mem k G hG ds c (List.nodup_cons.mp hl).1,
        List.append_nil]
    · have hdc : d ≠ c := fun he => (List.nodup_cons.mp hl).1 (he ▸ h)
      rw [List.filter_eq_nil_iff.mpr
        (fun r hr => by simp [hG d r hr, hdc]),
        List.nil_append]
      exact ih (List.nodup_cons.mp hl).2 h

theorem codesOf_nodup (t : List Row) : (codesOf t).Nodup :=
  List.nodup_dedup _

theorem pairsOf_nodup (t : List Row) : (pairsOf t).Nodup :=
  List.nodup_dedup _

theorem balancedClassTable_filter (seed : Nat) (t : List Row) (c : Int)
    (hc : c ∈ codesOf t) :
    (balancedClassTable seed t).filter (fun r => r.activity_code = c)
      = balanceGroup seed (minClassSize t) (classGroup t c) :=
  flatten_filter_mem (fun r => r.activity_code)
    (fun d => balanceGroup seed (minClassSize t) (classGroup t d))
    (fun d r hr => (mem_classGroup.mp (balanceGroup_subset _ _ _ r hr)).2)
    (codesOf t) c (codesOf_nodup t) hc

theorem balancedPairTable_filter (seed : Nat) (t : List Row) (p : Int × Nat)
    (hp : p ∈ pairsOf t) :
    (BalanceToMinimumClassAndUser seed t).filter
        (fun r => (r.activity_code, r.user) = p)
      = balanceGroup seed (minPairSize t) (pairGroup t p) :=
  flatten_filter_mem (fun r => (r.activity_code, r.user))
    (fun q => balanceGroup seed (minPairSize t) (pairGroup t q))
    (fun q r hr => (mem_pairGroup.mp (balanceGroup_subset _ _ _ r hr)).2)
    (pairsOf t) p (pairsOf_nodup t) hp

theorem minClassSize_le {t : List Row} {c : Int} (hc : c ∈ codesOf t) :
    minClassSize t ≤ (classGroup t c).length :=
  foldr_min_le (List.mem_map.mpr ⟨c, hc, rfl⟩)

theorem minPairSize_le {t : List Row} {p : Int × Nat} (hp : p ∈ pairsOf t) :
    minPairSize t ≤ (pairGroup t p).length :=
  foldr_min_le (List.mem_map.mpr ⟨p, hp, rfl⟩)

theorem codesOf_ne_nil {t : List Row} (ht : t ≠ []) : codesOf t ≠ [] := by
  intro h
  apply ht
  have := (List.dedup_eq_nil _).mp h
  simpa using List.map_eq_nil_iff.mp this

theorem pairsOf_ne_nil {t : List Row} (ht : t ≠ []) : pairsOf t ≠ [] := by
  intro h
  apply ht
  have := (List.dedup_eq_nil _).mp h
  simpa using List.map_eq_nil_iff.mp this

theorem minClassSize_attained {t : List Row} (ht : t ≠ []) :
    ∃ c ∈ codesOf t, (classGroup t c).length = minClassSize t := by
  have hmem : minClassSize t ∈
      (codesOf t).map (fun c => (classGroup t c).length) := by
    apply foldr_min_mem
    · simp [codesOf_ne_nil ht]
    · intro x hx
      obtain ⟨c, _, rfl⟩ := List.mem_map.mp hx
      exact List.length_filter_le _ t
  obtain ⟨c, hc, he⟩ := List.mem_map.mp hmem
  exact ⟨c, hc, he⟩

theorem minPairSize_attained {t : List Row} (ht : t ≠ []) :
    ∃ p ∈ pairsOf t, (pairGroup t p).length = minPairSize t := by
  have hmem : minPairSize t ∈
      (pairsOf t).map (fun p => (pairGroup t p).length) := by
    apply foldr_min_mem
    · simp [pairsOf_ne_nil ht]
    · intro x hx
      obtain ⟨p, _, rfl⟩ := List.mem_map.mp hx
      exact List.length_filter_le _ t
  obtain ⟨p, hp, he⟩ := List.mem_map.mp hmem
  exact ⟨p, hp, he⟩

theorem mem_codesOf {t : List Row} {c : Int} :
    c ∈ codesOf t ↔ ∃ r ∈ t, r.activity_code = c := by
  simp [codesOf, List.mem_dedup]

theorem mem_pairsOf {t : List Row} {p : Int × Nat} :
    p ∈ pairsOf t ↔ ∃ r ∈ t, (r.activity_code, r.user) = p := by
  simp [pairsOf, List.mem_dedup]

theorem pairGroup_ne_nil {t : List Row} {p : Int × Nat} (hp : p ∈ pairsOf t) :
    pairGroup t p ≠ [] := by
  obtain ⟨r, hr, he⟩ := mem_pairsOf.mp hp
  exact List.ne_nil_of_mem (mem_pairGroup.mpr ⟨hr, he⟩)

theorem classGroup_ne_nil {t : List Row} {c : Int} (hc : c ∈ codesOf t) :
    classGroup t c ≠ [] := by
  obtain ⟨r, hr, he⟩ := mem_codesOf.mp hc
  exact List.ne_nil_of_mem (mem_classGroup.mpr ⟨hr, he⟩)

end Lemmas

/-- C2: on success, `BalanceToMinimumClass` returns a table in which every
activity-code group present in the input has exactly `m` rows, where `m` is
the minimum group size over the input's activity-code groups (attained by some
group); groups already at size `m` are kept whole, and the output has exactly
`m` rows per distinct code — so three classes of sizes 100, 40 and 70 yield
3 × 40 = 120 output rows. -/
theorem spec_C2 (classes : List Int) (seed : Nat) (t out : List Row)
    (h : BalanceToMinimumClass classes seed t = .ok out) :
    (∀ c ∈ codesOf t,
      (out.filter (fun r => r.activity_code = c)).length = minClassSize t ∧
      minClassSize t ≤ (classGroup t c).length ∧
      (∀ r ∈ out.filter (fun r => r.activity_code = c), r ∈ classGroup t c) ∧
      ((classGroup t c).length = minClassSize t →
        out.filter (fun r => r.activity_code = c) = classGroup t c)) ∧
    (t ≠ [] → ∃ c ∈ codesOf t, (classGroup t c).length = minClassSize t) ∧
    out.length = (codesOf t).length * minClassSize t := by
  have hout : out = balancedClassTable seed t := by
    unfold BalanceToMinimumClass at h
    split at h
    · cases h
    · cases h; rfl
  subst hout
  refine ⟨fun c hc => ?_, minClassSize_attained, ?_⟩
  · have hfilter := balancedClassTable_filter seed t c hc
    have hle := minClassSize_le hc
    refine ⟨?_, hle, ?_, ?_⟩
    · rw [hfilter, balanceGroup_length, min_eq_left hle]
    · intro r hr
      rw [hfilter] at hr
      exact balanceGroup_subset _ _ _ r hr
    · intro hsz
      rw [hfilter]
      exact balanceGroup_of_le _ _ _ (le_of_eq hsz)
  · unfold balancedClassTable
    rw [List.length_flatten, List.map_map]
    have hmap : (codesOf t).map
        (List.length ∘ fun c => balanceGroup seed (minClassSize t) (classGroup t c))
        = (codesOf t).map (fun _ => minClassSize t) := by
      apply List.map_congr_left
      intro c hc
      simp only [Function.comp_apply]
      rw [balanceGroup_length, min_eq_left (minClassSize_le hc)]
    rw [hmap]
    simp [List.map_const, mul_comm]

set_option maxRecDepth 1000000 in
/-- C2 witness: on the spec's example — three classes of sizes 100, 40 and 70
with seed 42 — balancing succeeds, every class group of the output has exactly
40 rows, and the output has 120 rows in total. -/
theorem spec_C2_witness :
    BalanceToMinimumClass [0, 1, 2] 42 exampleUnbalancedTable
      = .ok (balancedClassTable 42 exampleUnbalancedTable) ∧
    (balancedClassTable 42 exampleUnbalancedTable).length = 120 ∧
    ((balancedClassTable 42 exampleUnbalancedTable).filter
      (fun r => r.activity_code = 1)).length = 40 := by
  have h : BalanceToMinimumClass [0, 1, 2] 42 exampleUnbalancedTable
      = .ok (balancedClassTable 42 exampleUnbalancedTable) := by
    unfold BalanceToMinimumClass
    rw [if_neg (by decide)]
  have main := spec_C2 [0, 1, 2] 42 exampleUnbalancedTable _ h
  refine ⟨h, ?_, ?_⟩
  · rw [main.2.2]; decide
  · rw [(main.1 1 (by decide)).1]; decide

/-- C4: `BalanceToMinimumClassAndUser` returns a table in which every
(activity_code, user) group present in the input has at most `m` rows, where
`m` is the minimum non-empty pair-group size of the input (attained by some
group): the output group size is exactly `min` of the input group size and
`m`, groups of size at most `m` are kept exactly as-is, no group is dropped
(every pair keeps at least one row), and no group is upsampled (every output
row of a group comes from that input group). -/
theorem spec_C4 (seed : Nat) (t : List Row) :
    (∀ p ∈ pairsOf t,
      ((BalanceToMinimumClassAndUser seed t).filter
          (fun r => (r.activity_code, r.user) = p)).length
        = min (minPairSize t) (pairGroup t p).length ∧
      minPairSize t ≤ (pairGroup t p).length ∧
      ((pairGroup t p).length ≤ minPairSize t →
        (BalanceToMinimumClassAndUser seed t).filter
          (fun r => (r.activity_code, r.user) = p) = pairGroup t p) ∧
      (BalanceToMinimumClassAndUser seed t).filter
          (fun r => (r.activity_code, r.user) = p) ≠ [] ∧
      (∀ r ∈ (BalanceToMinimumClassAndUser seed t).filter
          (fun r => (r.activity_code, r.user) = p), r ∈ pairGroup t p)) ∧
    (t ≠ [] → ∃ p ∈ pairsOf t, (pairGroup t p).length = minPairSize t) := by
  refine ⟨fun p hp => ?_, minPairSize_attained⟩
  have hfilter := balancedPairTable_filter seed t p hp
  have hle := minPairSize_le hp
  have hone : 1 ≤ minPairSize t := by
    apply le_foldr_min
    · have := pairGroup_ne_nil hp
      have h1 : 1 ≤ (pairGroup t p).length := by
        cases hg : pairGroup t p with
        | nil => exact absurd hg this
        | cons a l => simp
      exact le_trans h1 (List.length_filter_le _ t)
    · intro x hx
      obtain ⟨q, hq, rfl⟩ := List.mem_map.mp hx
      have := pairGroup_ne_nil hq
      cases hg : pairGroup t q with
      | nil => exact absurd hg this
      | cons a l => simp [hg]
  refine ⟨?_, hle, ?_, ?_, ?_⟩
  · rw [hfilter, balanceGroup_length]
  · intro hsz
    rw [hfilter]
    exact balanceGroup_of_le _ _ _ hsz
  · rw [hfilter]
    intro hnil
    have := balanceGroup_length seed (minPairSize t) (pairGroup t p)
    rw [hnil] at this
    simp only [List.length_nil] at this
    have h1 : 1 ≤ (pairGroup t p).length := le_trans hone hle
    omega
  · intro r hr
    rw [hfilter] at hr
    exact balanceGroup_subset _ _ _ r hr

/-- C4 witness: on a 3-row table whose (code, user) groups have sizes 2 and 1,
the larger group is subsampled to the minimum size 1 and the group already at
the minimum is kept exactly as-is. -/
theorem spec_C4_witness :
    ((BalanceToMinimumClassAndUser 7 [⟨1, 0, 0⟩, ⟨1, 1, 0⟩, ⟨2, 0, 0⟩]).filter
        (fun r => (r.activity_code, r.user) = (0, 1))).length = 1 ∧
    (BalanceToMinimumClassAndUser 7 [⟨1, 0, 0⟩, ⟨1, 1, 0⟩, ⟨2, 0, 0⟩]).filter
        (fun r => (r.activity_code, r.user) = (0, 2))
      = pairGroup [⟨1, 0, 0⟩, ⟨1, 1, 0⟩, ⟨2, 0, 0⟩] (0, 2) := by
  have main := spec_C4 7 [⟨1, 0, 0⟩, ⟨1, 1, 0⟩, ⟨2, 0, 0⟩]
  constructor
  · rw [(main.1 (0, 1) (by decide)).1]; decide
  · exact (main.1 (0, 2) (by decide)).2.2.1 (by decide)

/-- C8: `FilterByCommonRows` is idempotent — applying it to its own output
returns that output unchanged — and each returned table consists precisely of
the rows of the corresponding input whose key value occurs in both inputs,
as a sublist of the input (hence in the input's own row order). -/
theorem spec_C8 {α : Type} (key : α → Nat) (t1 t2 : List α) :
    FilterByCommonRows key (FilterByCommonRows key t1 t2).1
        (FilterByCommonRows key t1 t2).2
      = FilterByCommonRows key t1 t2 ∧
    (FilterByCommonRows key t1 t2).1.Sublist t1 ∧
    (FilterByCommonRows key t1 t2).2.Sublist t2 ∧
    (∀ r, r ∈ (FilterByCommonRows key t1 t2).1 ↔
      r ∈ t1 ∧ key r ∈ t2.map key) ∧
    (∀ r, r ∈ (FilterByCommonRows key t1 t2).2 ↔
      r ∈ t2 ∧ key r ∈ t1.map key) := by
  have hmem1 : ∀ r, r ∈ (FilterByCommonRows key t1 t2).1 ↔
      r ∈ t1 ∧ key r ∈ t2.map key := by
    intro r
    simp [FilterByCommonRows, List.mem_filter]
  have hmem2 : ∀ r, r ∈ (FilterByCommonRows key t1 t2).2 ↔
      r ∈ t2 ∧ key r ∈ t1.map key := by
    intro r
    simp [FilterByCommonRows, List.mem_filter]
  refine ⟨?_, List.filter_sublist t1, List.filter_sublist t2, hmem1, hmem2⟩
  unfold FilterByCommonRows
  apply Prod.ext
  · apply List.filter_eq_self.mpr
    intro r hr
    obtain ⟨hr1, hr2⟩ := (hmem1 r).mp hr
    obtain ⟨y, hy, hky⟩ := List.mem_map.mp hr2
    have hyB : y ∈ (FilterByCommonRows key t1 t2).2 :=
      (hmem2 y).mpr ⟨hy, hky ▸ List.mem_map.mpr ⟨r, hr1, rfl⟩⟩
    have hk : key r ∈ ((FilterByCommonRows key t1 t2).2).map key :=
      List.mem_map.mpr ⟨y, hyB, hky⟩
    simpa [FilterByCommonRows] using hk
  · apply List.filter_eq_self.mpr
    intro r hr
    obtain ⟨hr1, hr2⟩ := (hmem2 r).mp hr
    obtain ⟨y, hy, hky⟩ := List.mem_map.mp hr2
    have hyA : y ∈ (FilterByCommonRows key t1 t2).1 :=
      (hmem1 y).mpr ⟨hy, hky ▸ List.mem_map.mpr ⟨r, hr1, rfl⟩⟩
    have hk : key r ∈ ((FilterByCommonRows key t1 t2).1).map key :=
      List.mem_map.mpr ⟨y, hyA, hky⟩
    simpa [FilterByCommonRows] using hk

/-- C7: the three seeded operations are deterministic — two runs on identical
input tables with an identical seed produce identical selected rows and output
tables. -/
theorem spec_C7 (classes : List Int) (sa sb : Nat) (ta tb : List Row)
    (p0 p1 p2 : Nat) (ht : ta = tb) (hs : sa = sb) :
    BalanceToMinimumClass classes sa ta = BalanceToMinimumClass classes sb tb ∧
    BalanceToMinimumClassAndUser sa ta = BalanceToMinimumClassAndUser sb tb ∧
    SplitGuaranteeingAllClassesPerSplit p0 p1 p2 ta
      = SplitGuaranteeingAllClassesPerSplit p0 p1 p2 tb := by
  subst ht
  subst hs
  exact ⟨rfl, rfl, rfl⟩

/-- C7 witness: two runs on the same concrete one-row table with seed 42
agree on all three operations. -/
theorem spec_C7_witness :
    BalanceToMinimumClass [] 42 [⟨1, 0, 0⟩]
      = BalanceToMinimumClass [] 42 [⟨1, 0, 0⟩] ∧
    BalanceToMinimumClassAndUser 42 [⟨1, 0, 0⟩]
      = BalanceToMinimumClassAndUser 42 [⟨1, 0, 0⟩] ∧
    SplitGuaranteeingAllClassesPerSplit 70 15 15 [⟨1, 0, 0⟩]
      = SplitGuaranteeingAllClassesPerSplit 70 15 15 [⟨1, 0, 0⟩] :=
  spec_C7 [] 42 42 [⟨1, 0, 0⟩] [⟨1, 0, 0⟩] 70 15 15 rfl rfl

/-- C10: in the `df_root` table recorded by the notebook for
`read_hiacc_smartphone`, the `user` metadata column appears twice — once
directly after the accelerometer channel columns and once directly after the
gyroscope channel columns — among the 13 columns of every aligned row,
rather than once in a deduplicated metadata block. -/
theorem spec_C10 :
    df_root_columns.length = 13 ∧
    df_root_columns.count "user" = 2 ∧
    df_root_columns.getD 3 "" = "accel-z" ∧
    df_root_columns.getD 4 "" = "user" ∧
    df_root_columns.getD 11 "" = "gyro-z" ∧
    df_root_columns.getD 12 "" = "user" := by
  refine ⟨rfl, rfl, rfl, rfl, rfl, rfl⟩

section AlignLemmas

theorem nearestAux_mem (t : Nat) :
    ∀ (l : List Sample) (best : Sample), nearestAux t best l ∈ best :: l := by
  intro l
  induction l with
  | nil => intro best; simp [nearestAux]
  | cons a rest ih =>
    intro best
    rw [nearestAux]
    by_cases hc : tdist t a.ts < tdist t best.ts
    · rw [if_pos hc]
      exact List.mem_cons_of_mem best (ih a)
    · rw [if_neg hc]
      rcases List.mem_cons.mp (ih best) with h | h
      · rw [h]; exact List.mem_cons_self best _
      · exact List.mem_cons_of_mem best (List.mem_cons_of_mem a h)

theorem nearestAux_min (t : Nat) :
    ∀ (l : List Sample) (best : Sample),
      ∀ s ∈ best :: l, tdist t (nearestAux t best l).ts ≤ tdist t s.ts := by
  intro l
  induction l with
  | nil =>
    intro best s hs
    rw [List.mem_singleton] at hs
    subst hs
    simp [nearestAux]
  | cons a rest ih =>
    intro best s hs
    rw [nearestAux]
    by_cases hc : tdist t a.ts < tdist t best.ts
    · rw [if_pos hc]
      rcases List.mem_cons.mp hs with h | h
      · subst h
        exact le_trans (ih a a (List.mem_cons_self a rest)) (le_of_lt hc)
      · exact ih a s h
    · rw [if_neg hc]
      rcases List.mem_cons.mp hs with h | h
      · subst h
        exact ih s s (List.mem_cons_self s rest)
      · rcases List.mem_cons.mp h with h2 | h2
        · subst h2
          exact le_trans (ih best best (List.mem_cons_self best rest))
            (not_lt.mp hc)
        · exact ih best s (List.mem_cons_of_mem best h2)

theorem nearestAux_tie (t : Nat) :
    ∀ (l : List Sample) (best : Sample),
      (best :: l).Pairwise (fun a b => a.ts ≤ b.ts) →
      ∀ s ∈ best :: l,
        tdist t s.ts = tdist t (nearestAux t best l).ts →
        (nearestAux t best l).ts ≤ s.ts := by
  intro l
  induction l with
  | nil =>
    intro best _ s hs _
    rw [List.mem_singleton] at hs
    subst hs
    simp [nearestAux]
  | cons a rest ih =>
    intro best hsorted s hs heq
    rw [nearestAux] at heq ⊢
    have htail : (a :: rest).Pairwise (fun x y => x.ts ≤ y.ts) :=
      List.Pairwise.of_cons hsorted
    have hba : best.ts ≤ a.ts :=
      List.rel_of_pairwise_cons hsorted (List.mem_cons_self a rest)
    by_cases hc : tdist t a.ts < tdist t best.ts
    · rw [if_pos hc] at heq ⊢
      rcases List.mem_cons.mp hs with h | h
      · subst h
        have hmin := nearestAux_min t rest a a (List.mem_cons_self a rest)
        omega
      · exact ih a htail s h heq
    · rw [if_neg hc] at heq ⊢
      have hbrest : (best :: rest).Pairwise (fun x y => x.ts ≤ y.ts) := by
        rw [List.pairwise_cons]
        exact ⟨fun x hx => List.rel_of_pairwise_cons hsorted
          (List.mem_cons_of_mem a hx), List.Pairwise.of_cons htail⟩
      rcases List.mem_cons.mp hs with h | h
      · subst h
        exact ih s hbrest s (List.mem_cons_self s rest) heq
      · rcases List.mem_cons.mp h with h2 | h2
        · subst h2
          have hmb := nearestAux_min t rest best best
            (List.mem_cons_self best rest)
          have hnotlt : tdist t best.ts ≤ tdist t s.ts := not_lt.mp hc
          have heqb : tdist t best.ts
              = tdist t (nearestAux t best rest).ts := by omega
          exact le_trans
            (ih best hbrest best (List.mem_cons_self best rest) heqb) hba
        · exact ih best hbrest s (List.mem_cons_of_mem best h2) heq

theorem nearestSample_mem (t : Nat) (m : List Sample) (hm : m ≠ []) :
    nearestSample t m ∈ m := by
  cases m with
  | nil => exact absurd rfl hm
  | cons a rest => exact nearestAux_mem t rest a

theorem nearestSample_min (t : Nat) (m : List Sample) (hm : m ≠ []) :
    ∀ s ∈ m, tdist t (nearestSample t m).ts ≤ tdist t s.ts := by
  cases m with
  | nil => exact absurd rfl hm
  | cons a rest => exact nearestAux_min t rest a

theorem nearestSample_tie (t : Nat) (m : List Sample) (hm : m ≠ [])
    (hsorted : m.Pairwise (fun a b => a.ts ≤ b.ts)) :
    ∀ s ∈ m, tdist t s.ts = tdist t (nearestSample t m).ts →
      (nearestSample t m).ts ≤ s.ts := by
  cases m with
  | nil => exact absurd rfl hm
  | cons a rest => exact nearestAux_tie t rest a hsorted

theorem le_foldr_max {l : List Nat} {x : Nat} (hx : x ∈ l) :
    x ≤ l.foldr max 0 := by
  induction l with
  | nil => cases hx
  | cons b bs ih =>
    rcases List.mem_cons.mp hx with h | h
    · subst h; exact le_max_left _ _
    · exact le_trans (ih h) (le_max_right _ _)

theorem tdist_le_left {a s b : Nat} (h1 : a ≤ s) (h2 : s ≤ b) :
    tdist a s ≤ tdist a b := by
  simp only [tdist]
  omega

theorem tdist_le_right {a s b : Nat} (h1 : a ≤ s) (h2 : s ≤ b) :
    tdist b s ≤ tdist a b := by
  simp only [tdist]
  omega

theorem refGap_mem (ref : List Sample) (i : Nat) (hi : i + 1 < ref.length) :
    tdist (ref.get ⟨i, Nat.lt_of_succ_lt hi⟩).ts (ref.get ⟨i + 1, hi⟩).ts
      ∈ refGaps ref := by
  have hzl : i < (ref.zip ref.tail).length := by
    rw [List.length_zip, List.length_tail]
    omega
  apply List.mem_map.mpr
  refine ⟨(ref.zip ref.tail).get ⟨i, hzl⟩, List.get_mem _ _ _, ?_⟩
  have hz : (ref.zip ref.tail).get ⟨i, hzl⟩
      = (ref.get ⟨i, Nat.lt_of_succ_lt hi⟩, ref.get ⟨i + 1, hi⟩) := by
    simp [List.get_eq_getElem, List.getElem_zip, List.getElem_tail]
  rw [hz]

theorem mods_nonempty_of_aligned {ref : List Sample}
    {mods : List (List Sample)} {out : List ARow}
    (h : StreamAligner ref mods = some out) :
    ∀ m ∈ mods, m ≠ [] := by
  unfold StreamAligner at h
  split at h
  · cases h
  · rename_i hguard
    intro m hm hnil
    exact hguard (List.any_eq_true.mpr ⟨m, hm, by simp [hnil]⟩)

theorem aligned_out_eq {ref : List Sample} {mods : List (List Sample)}
    {out : List ARow} (h : StreamAligner ref mods = some out) :
    out = ref.map
      (fun r => ⟨r, mods.map (fun m => nearestSample r.ts m)⟩) := by
  unfold StreamAligner at h
  split at h
  · cases h
  · cases h; rfl

theorem matched_zip_eq (r : Sample) (mods : List (List Sample)) :
    (mods.map (fun m => nearestSample r.ts m)).zip mods
      = mods.map (fun m => (nearestSample r.ts m, m)) := by
  have hz := List.zip_map' (fun m => nearestSample r.ts m) id mods
  rwa [List.map_id] at hz

end AlignLemmas

/-- C5: for sessions whose per-modality series are sorted ascending by
timestamp, every row of the aligner's output pairs the reference sample with
exactly one sample from each configured modality (one output row per
reference sample); the sample matched from each modality is one of that
modality's own samples (never synthesized), it minimises the timestamp
distance to the reference timestamp, and ties are broken toward the earlier
sample; the row records the reference sample and the matched sample together
with their own timestamps. -/
theorem spec_C5 (ref : List Sample) (mods : List (List Sample))
    (out : List ARow)
    (hsort : ∀ m ∈ mods, m.Pairwise (fun a b => a.ts ≤ b.ts))
    (h : StreamAligner ref mods = some out) :
    out.length = ref.length ∧
    ∀ row ∈ out,
      row.ref ∈ ref ∧
      row.matched.length = mods.length ∧
      ∀ pr ∈ row.matched.zip mods,
        pr.1 ∈ pr.2 ∧
        (∀ s ∈ pr.2, tdist row.ref.ts pr.1.ts ≤ tdist row.ref.ts s.ts) ∧
        (∀ s ∈ pr.2, tdist row.ref.ts s.ts = tdist row.ref.ts pr.1.ts →
          pr.1.ts ≤ s.ts) := by
  have hne := mods_nonempty_of_aligned h
  have hout := aligned_out_eq h
  subst hout
  refine ⟨List.length_map _ _, ?_⟩
  intro row hrow
  obtain ⟨r, hr, rfl⟩ := List.mem_map.mp hrow
  refine ⟨hr, List.length_map _ _, ?_⟩
  intro pr hpr
  rw [matched_zip_eq] at hpr
  obtain ⟨m, hm, rfl⟩ := List.mem_map.mp hpr
  exact ⟨nearestSample_mem r.ts m (hne m hm),
    nearestSample_min r.ts m (hne m hm),
    nearestSample_tie r.ts m (hne m hm) (hsort m hm)⟩

/-- C5 witness: a one-sample reference aligned against one sorted modality of
one sample matches that sample, at distance 1, with both timestamps kept. -/
theorem spec_C5_witness :
    (([⟨1, 2⟩] : List Sample).Pairwise (fun a b => a.ts ≤ b.ts)) ∧
    StreamAligner [⟨0, 0⟩] [[⟨1, 2⟩]]
      = some [⟨⟨0, 0⟩, [⟨1, 2⟩]⟩] ∧
    (([⟨⟨0, 0⟩, [⟨1, 2⟩]⟩] : List ARow).length = ([⟨0, 0⟩] : List Sample).length ∧
      ∀ row ∈ ([⟨⟨0, 0⟩, [⟨1, 2⟩]⟩] : List ARow),
        row.ref ∈ ([⟨0, 0⟩] : List Sample) ∧
        row.matched.length = ([[⟨1, 2⟩]] : List (List Sample)).length ∧
        ∀ pr ∈ row.matched.zip ([[⟨1, 2⟩]] : List (List Sample)),
          pr.1 ∈ pr.2 ∧
          (∀ s ∈ pr.2, tdist row.ref.ts pr.1.ts ≤ tdist row.ref.ts s.ts) ∧
          (∀ s ∈ pr.2, tdist row.ref.ts s.ts = tdist row.ref.ts pr.1.ts →
            pr.1.ts ≤ s.ts)) := by
  refine ⟨by decide, by decide, ?_⟩
  exact spec_C5 [⟨0, 0⟩] [[⟨1, 2⟩]] [⟨⟨0, 0⟩, [⟨1, 2⟩]⟩]
    (by decide) (by decide)

/-- C6 counterexample: with sorted reference timestamps 0 and 10 (maximum
consecutive gap 10) and one modality holding a single sample at timestamp
1000, the aligner succeeds, but the matched sample's timestamp differs from
the reference timestamp by 1000 > 10 — refuting the claimed bound by the
maximum gap between consecutive reference timestamps. -/
theorem spec_C6_counterexample :
    (([⟨0, 0⟩, ⟨10, 0⟩] : List Sample).Pairwise (fun a b => a.ts ≤ b.ts)) ∧
    (([⟨1000, 5⟩] : List Sample).Pairwise (fun a b => a.ts ≤ b.ts)) ∧
    StreamAligner [⟨0, 0⟩, ⟨10, 0⟩] [[⟨1000, 5⟩]]
      = some [⟨⟨0, 0⟩, [⟨1000, 5⟩]⟩, ⟨⟨10, 0⟩, [⟨1000, 5⟩]⟩] ∧
    maxRefGap [⟨0, 0⟩, ⟨10, 0⟩] = 10 ∧
    ¬ (∀ row ∈ ([⟨⟨0, 0⟩, [⟨1000, 5⟩]⟩, ⟨⟨10, 0⟩, [⟨1000, 5⟩]⟩] : List ARow),
        ∀ pr ∈ row.matched.zip ([[⟨1000, 5⟩]] : List (List Sample)),
          tdist row.ref.ts pr.1.ts ≤ maxRefGap [⟨0, 0⟩, ⟨10, 0⟩]) := by
  refine ⟨by decide, by decide, by decide, by decide, by decide⟩

/-- C6 (amended): if the session has at least two reference samples and every
interval between consecutive reference timestamps contains at least one
sample of each non-reference modality, then every matched sample's timestamp
differs from its row's reference timestamp by no more than the maximum gap
between consecutive reference timestamps. -/
theorem spec_C6_amended (ref : List Sample) (mods : List (List Sample))
    (out : List ARow) (hlen : 2 ≤ ref.length)
    (hdense : ∀ m ∈ mods, ∀ i : Nat, ∀ hi : i + 1 < ref.length,
      ∃ s ∈ m, (ref.get ⟨i, Nat.lt_of_succ_lt hi⟩).ts ≤ s.ts ∧
        s.ts ≤ (ref.get ⟨i + 1, hi⟩).ts)
    (h : StreamAligner ref mods = some out) :
    ∀ row ∈ out, ∀ pr ∈ row.matched.zip mods,
      tdist row.ref.ts pr.1.ts ≤ maxRefGap ref := by
  have hne := mods_nonempty_of_aligned h
  have hout := aligned_out_eq h
  subst hout
  intro row hrow pr hpr
  obtain ⟨i, hilen, hrow⟩ := List.mem_iff_getElem.mp hrow
  rw [List.getElem_map] at hrow
  subst hrow
  rw [matched_zip_eq] at hpr
  obtain ⟨m, hm, rfl⟩ := List.mem_map.mp hpr
  simp only [List.length_map] at hilen
  set r := ref[i] with hr
  have hrget : r = ref.get ⟨i, hilen⟩ := rfl
  by_cases hcase : i + 1 < ref.length
  · obtain ⟨s, hs, h1, h2⟩ := hdense m hm i hcase
    have hmin := nearestSample_min r.ts m (hne m hm) s hs
    have hstep : tdist r.ts s.ts
        ≤ tdist (ref.get ⟨i, Nat.lt_of_succ_lt hcase⟩).ts
            (ref.get ⟨i + 1, hcase⟩).ts := by
      rw [hrget]
      exact tdist_le_left h1 h2
    exact le_trans (le_trans hmin hstep)
      (le_foldr_max (refGap_mem ref i hcase))
  · have hieq : i = ref.length - 1 := by omega
    have hj : i - 1 + 1 < ref.length := by omega
    obtain ⟨s, hs, h1, h2⟩ := hdense m hm (i - 1) hj
    have hidx : (⟨i - 1 + 1, hj⟩ : Fin ref.length) = ⟨i, hilen⟩ := by
      apply Fin.ext
      simp only []
      omega
    rw [hidx] at h2
    have hmin := nearestSample_min r.ts m (hne m hm) s hs
    have hstep : tdist r.ts s.ts
        ≤ tdist (ref.get ⟨i - 1, Nat.lt_of_succ_lt hj⟩).ts
            (ref.get ⟨i - 1 + 1, hj⟩).ts := by
      rw [hidx, hrget]
      exact tdist_le_right h1 (hrget ▸ h2)
    exact le_trans (le_trans hmin hstep)
      (le_foldr_max (refGap_mem ref (i - 1) hj))

/-- C6 amended witness: reference timestamps 0 and 10 with one modality
sample at timestamp 3 inside the single consecutive-reference interval; both
matched distances (3 and 7) are bounded by the maximum reference gap 10. -/
theorem spec_C6_amended_witness :
    2 ≤ ([⟨0, 0⟩, ⟨10, 0⟩] : List Sample).length ∧
    StreamAligner [⟨0, 0⟩, ⟨10, 0⟩] [[⟨3, 1⟩]]
      = some [⟨⟨0, 0⟩, [⟨3, 1⟩]⟩, ⟨⟨10, 0⟩, [⟨3, 1⟩]⟩] ∧
    (∀ row ∈ ([⟨⟨0, 0⟩, [⟨3, 1⟩]⟩, ⟨⟨10, 0⟩, [⟨3, 1⟩]⟩] : List ARow),
      ∀ pr ∈ row.matched.zip ([[⟨3, 1⟩]] : List (List Sample)),
        tdist row.ref.ts pr.1.ts ≤ maxRefGap [⟨0, 0⟩, ⟨10, 0⟩]) := by
  refine ⟨by decide, by decide, ?_⟩
  apply spec_C6_amended [⟨0, 0⟩, ⟨10, 0⟩] [[⟨3, 1⟩]]
    [⟨⟨0, 0⟩, [⟨3, 1⟩]⟩, ⟨⟨10, 0⟩, [⟨3, 1⟩]⟩] (by decide) ?_ (by decide)
  intro m hm i hi
  have hi0 : i = 0 := by
    simp only [List.length_cons, List.length_nil] at hi
    omega
  subst hi0
  have hm1 : m = [⟨3, 1⟩] := by
    simpa using hm
  subst hm1
  refine ⟨⟨3, 1⟩, by decide, ?_, ?_⟩
  · show (0 : Nat) ≤ 3
    decide
  · show (3 : Nat) ≤ 10
    decide

/-- C9: per-session alignment fails with `SessionAlignmentError` exactly when
the session's metadata disagrees between its modalities; a failed session is
excluded from the aggregate while the aggregation of the remaining sessions
continues (the aggregator is total and keeps successful sessions' rows); in
contrast, `InsufficientDataError` from balancing and `UnsatisfiableSplitError`
from splitting propagate unchanged through the pipeline tail to the caller. -/
theorem spec_C9 :
    (∀ s : Session,
      alignSession s = .error .sessionAlignment ↔ metaConsistent s = false) ∧
    (∀ (s : Session) (ss : List Session) (e : AlignError),
      alignSession s = .error e →
      SessionAggregator (s :: ss) = SessionAggregator ss) ∧
    (∀ (s : Session) (ss : List Session) (rows : List ARow),
      alignSession s = .ok rows →
      SessionAggregator (s :: ss) = rows ++ SessionAggregator ss) ∧
    (∀ (classes : List Int) (seed p0 p1 p2 : Nat) (t : List Row)
      (e : FatalError),
      BalanceToMinimumClass classes seed t = .error e →
      BalanceThenSplit classes seed p0 p1 p2 t = .error e) ∧
    (∀ (classes : List Int) (seed p0 p1 p2 : Nat) (t b : List Row),
      BalanceToMinimumClass classes seed t = .ok b →
      BalanceThenSplit classes seed p0 p1 p2 t
        = SplitGuaranteeingAllClassesPerSplit p0 p1 p2 b) := by
  refine ⟨?_, ?_, ?_, ?_, ?_⟩
  · intro s
    unfold alignSession
    by_cases hmc : metaConsistent s
    · rw [if_pos hmc]
      cases hsa : StreamAligner s.ref s.mods with
      | none => simp [hmc]
      | some rows => simp [hmc]
    · rw [if_neg hmc]
      simp at hmc
      simp [hmc]
  · intro s ss e h
    simp [SessionAggregator, h]
  · intro s ss rows h
    simp [SessionAggregator, h]
  · intro classes seed p0 p1 p2 t e h
    unfold BalanceThenSplit
    rw [h]
  · intro classes seed p0 p1 p2 t b h
    unfold BalanceThenSplit
    rw [h]

/-- C9 witness: a session whose two modalities record different users fails
with `SessionAlignmentError`, and aggregating just that session yields the
empty dataset instead of aborting. -/
theorem spec_C9_witness :
    alignSession ⟨[⟨1, 0⟩, ⟨2, 0⟩], [⟨0, 0⟩], [[⟨0, 0⟩]]⟩
      = .error .sessionAlignment ∧
    SessionAggregator [⟨[⟨1, 0⟩, ⟨2, 0⟩], [⟨0, 0⟩], [[⟨0, 0⟩]]⟩] = [] := by
  have h : alignSession ⟨[⟨1, 0⟩, ⟨2, 0⟩], [⟨0, 0⟩], [[⟨0, 0⟩]]⟩
      = .error .sessionAlignment :=
    (spec_C9.1 ⟨[⟨1, 0⟩, ⟨2, 0⟩], [⟨0, 0⟩], [[⟨0, 0⟩]]⟩).mpr (by decide)
  exact ⟨h, (spec_C9.2.1 _ [] _ h).trans rfl⟩

section SplitLemmas

theorem perm_compose3 {α : Type} (s0 s1 s2 un s0' s1' s2' u1 u2 u3 : List α)
    (h1 : (s0' ++ u1).Perm (s0 ++ un))
    (h2 : (s1' ++ u2).Perm (s1 ++ u1))
    (h3 : (s2' ++ u3).Perm (s2 ++ u2)) :
    (s0' ++ s1' ++ s2' ++ u3).Perm (s0 ++ s1 ++ s2 ++ un) := by
  rw [← Multiset.coe_eq_coe] at h1 h2 h3 ⊢
  simp only [← Multiset.coe_add] at h1 h2 h3 ⊢
  have H : ((s0' : Multiset α) + u1) + ((s1' : Multiset α) + u2)
        + ((s2' : Multiset α) + u3)
      = ((s0 : Multiset α) + un) + ((s1 : Multiset α) + u1)
        + ((s2 : Multiset α) + u2) := by
    rw [h1, h2, h3]
  have H2 : ((s0' : Multiset α) + s1' + s2' + u3) + (u1 + u2)
      = ((s0 : Multiset α) + s1 + s2 + un) + (u1 + u2) := by
    calc ((s0' : Multiset α) + s1' + s2' + u3) + (u1 + u2)
        = ((s0' : Multiset α) + u1) + ((s1' : Multiset α) + u2)
          + ((s2' : Multiset α) + u3) := by abel
      _ = ((s0 : Multiset α) + un) + ((s1 : Multiset α) + u1)
          + ((s2 : Multiset α) + u2) := H
      _ = ((s0 : Multiset α) + s1 + s2 + un) + (u1 + u2) := by abel
  exact add_right_cancel H2

theorem perm_move0 {α : Type} (s0 s1 s2 us : List α) (u : α) :
    ((s0 ++ [u]) ++ s1 ++ s2 ++ us).Perm (s0 ++ s1 ++ s2 ++ (u :: us)) := by
  rw [← Multiset.coe_eq_coe]
  simp only [← Multiset.coe_add, ← Multiset.cons_coe, Multiset.coe_singleton,
    ← Multiset.singleton_add]
  abel

theorem perm_move1 {α : Type} (s0 s1 s2 us : List α) (u : α) :
    (s0 ++ (s1 ++ [u]) ++ s2 ++ us).Perm (s0 ++ s1 ++ s2 ++ (u :: us)) := by
  rw [← Multiset.coe_eq_coe]
  simp only [← Multiset.coe_add, ← Multiset.cons_coe, Multiset.coe_singleton,
    ← Multiset.singleton_add]
  abel

theorem perm_move2 {α : Type} (s0 s1 s2 us : List α) (u : α) :
    (s0 ++ s1 ++ (s2 ++ [u]) ++ us).Perm (s0 ++ s1 ++ s2 ++ (u :: us)) := by
  rw [← Multiset.coe_eq_coe]
  simp only [← Multiset.coe_add, ← Multiset.cons_coe, Multiset.coe_singleton,
    ← Multiset.singleton_add]
  abel

theorem coverOne_spec {cs sp un sp' un' : List Nat}
    (h : coverOne cs sp un = some (sp', un')) :
    (sp' ++ un').Perm (sp ++ un) ∧ sp ⊆ sp' ∧ ∃ u ∈ sp', u ∈ cs := by
  unfold coverOne at h
  split at h
  · rename_i hany
    cases h
    obtain ⟨u, hu, hcs⟩ := List.any_eq_true.mp hany
    exact ⟨List.Perm.refl _, fun x hx => hx, u, hu, by simpa using hcs⟩
  · split at h
    · cases h
    · rename_i u hfind
      cases h
      have humem : u ∈ un := List.mem_of_find?_eq_some hfind
      have hucs : u ∈ cs := by simpa using List.find?_some hfind
      refine ⟨?_, List.subset_append_left _ _,
        u, List.mem_append_right sp (List.mem_singleton_self u), hucs⟩
      rw [List.append_assoc]
      apply List.Perm.append_left sp
      simpa using (List.perm_cons_erase humem).symm

theorem assignClass_spec {cs : List Nat} {st st' : SState}
    (h : assignClass cs st = some st') :
    (st'.s0 ++ st'.s1 ++ st'.s2 ++ st'.un).Perm
      (st.s0 ++ st.s1 ++ st.s2 ++ st.un) ∧
    st.s0 ⊆ st'.s0 ∧ st.s1 ⊆ st'.s1 ∧ st.s2 ⊆ st'.s2 ∧
    (∃ u ∈ st'.s0, u ∈ cs) ∧ (∃ u ∈ st'.s1, u ∈ cs) ∧
    (∃ u ∈ st'.s2, u ∈ cs) := by
  unfold assignClass at h
  split at h
  · cases h
  · rename_i s0 un1 hc0
    split at h
    · cases h
    · rename_i s1 un2 hc1
      split at h
      · cases h
      · rename_i s2 un3 hc2
        cases h
        obtain ⟨hp0, hs0, hcov0⟩ := coverOne_spec hc0
        obtain ⟨hp1, hs1, hcov1⟩ := coverOne_spec hc1
        obtain ⟨hp2, hs2, hcov2⟩ := coverOne_spec hc2
        exact ⟨perm_compose3 st.s0 st.s1 st.s2 st.un s0 s1 s2 un1 un2 un3
            hp0 hp1 hp2, hs0, hs1, hs2, hcov0, hcov1, hcov2⟩

theorem coverClasses_spec (t : List Row) :
    ∀ (cls : List Int) (st st' : SState),
    coverClasses t cls st = some st' →
    (st'.s0 ++ st'.s1 ++ st'.s2 ++ st'.un).Perm
      (st.s0 ++ st.s1 ++ st.s2 ++ st.un) ∧
    st.s0 ⊆ st'.s0 ∧ st.s1 ⊆ st'.s1 ∧ st.s2 ⊆ st'.s2 ∧
    ∀ c ∈ cls,
      (∃ u ∈ st'.s0, u ∈ usersOfCode t c) ∧
      (∃ u ∈ st'.s1, u ∈ usersOfCode t c) ∧
      (∃ u ∈ st'.s2, u ∈ usersOfCode t c) := by
  intro cls
  induction cls with
  | nil =>
    intro st st' h
    cases h
    exact ⟨List.Perm.refl _, fun x hx => hx, fun x hx => hx, fun x hx => hx,
      fun c hc => absurd hc (List.not_mem_nil c)⟩
  | cons c cs ih =>
    intro st st' h
    rw [coverClasses] at h
    split at h
    · cases h
    · rename_i st1 hassign
      obtain ⟨hperm1, h10, h11, h12, hcv0, hcv1, hcv2⟩ :=
        assignClass_spec hassign
      obtain ⟨hperm2, h20, h21, h22, hcov⟩ := ih st1 st' h
      refine ⟨hperm2.trans hperm1, fun x hx => h20 (h10 hx),
        fun x hx => h21 (h11 hx), fun x hx => h22 (h12 hx), ?_⟩
      intro d hd
      rcases List.mem_cons.mp hd with hdc | hdc
      · subst hdc
        obtain ⟨u0, hu0, hc0⟩ := hcv0
        obtain ⟨u1, hu1, hc1⟩ := hcv1
        obtain ⟨u2, hu2, hc2⟩ := hcv2
        exact ⟨⟨u0, h20 hu0, hc0⟩, ⟨u1, h21 hu1, hc1⟩, ⟨u2, h22 hu2, hc2⟩⟩
      · exact hcov d hdc

theorem fillUsers_spec (t : List Row) (p0 p1 p2 : Nat) :
    ∀ (us s0 s1 s2 u0 u1 u2 : List Nat),
    fillUsers t p0 p1 p2 us s0 s1 s2 = (u0, u1, u2) →
    (u0 ++ u1 ++ u2).Perm (s0 ++ s1 ++ s2 ++ us) ∧
    s0 ⊆ u0 ∧ s1 ⊆ u1 ∧ s2 ⊆ u2 := by
  intro us
  induction us with
  | nil =>
    intro s0 s1 s2 u0 u1 u2 h
    rw [fillUsers] at h
    cases h
    exact ⟨by simp, fun x hx => hx, fun x hx => hx, fun x hx => hx⟩
  | cons u us ih =>
    intro s0 s1 s2 u0 u1 u2 h
    rw [fillUsers] at h
    split at h
    · obtain ⟨hperm, h0, h1, h2⟩ := ih (s0 ++ [u]) s1 s2 u0 u1 u2 h
      exact ⟨hperm.trans (perm_move0 s0 s1 s2 us u),
        fun x hx => h0 (List.mem_append_left [u] hx), h1, h2⟩
    · split at h
      · obtain ⟨hperm, h0, h1, h2⟩ := ih s0 (s1 ++ [u]) s2 u0 u1 u2 h
        exact ⟨hperm.trans (perm_move1 s0 s1 s2 us u), h0,
          fun x hx => h1 (List.mem_append_left [u] hx), h2⟩
      · obtain ⟨hperm, h0, h1, h2⟩ := ih s0 s1 (s2 ++ [u]) u0 u1 u2 h
        exact ⟨hperm.trans (perm_move2 s0 s1 s2 us u), h0, h1,
          fun x hx => h2 (List.mem_append_left [u] hx)⟩

theorem insertByKey_perm (key : Int → Nat) (c : Int) (l : List Int) :
    (insertByKey key c l).Perm (c :: l) := by
  induction l with
  | nil => exact List.Perm.refl _
  | cons d ds ih =>
    rw [insertByKey]
    split
    · exact List.Perm.refl _
    · exact (ih.cons d).trans (List.Perm.swap c d ds)

theorem sortByKey_perm (key : Int → Nat) (l : List Int) :
    (sortByKey key l).Perm l := by
  unfold sortByKey
  induction l with
  | nil => exact List.Perm.refl _
  | cons c cs ih =>
    exact (insertByKey_perm key c (cs.foldr (insertByKey key) [])).trans
      (ih.cons c)

theorem mem_usersOf {t : List Row} {u : Nat} :
    u ∈ usersOf t ↔ ∃ r ∈ t, r.user = u := by
  simp [usersOf, List.mem_dedup]

theorem mem_usersOfCode {t : List Row} {c : Int} {u : Nat} :
    u ∈ usersOfCode t c ↔ ∃ r ∈ t, r.activity_code = c ∧ r.user = u := by
  simp only [usersOfCode, List.mem_dedup, List.mem_map]
  constructor
  · rintro ⟨r, hr, rfl⟩
    obtain ⟨hrt, hrc⟩ := mem_classGroup.mp hr
    exact ⟨r, hrt, hrc, rfl⟩
  · rintro ⟨r, hrt, hrc, rfl⟩
    exact ⟨r, mem_classGroup.mpr ⟨hrt, hrc⟩, rfl⟩

theorem filter_partition3 (t : List Row) (q0 q1 q2 : Row → Bool)
    (hex : ∀ r ∈ t,
      (q0 r = true ∧ q1 r = false ∧ q2 r = false) ∨
      (q0 r = false ∧ q1 r = true ∧ q2 r = false) ∨
      (q0 r = false ∧ q1 r = false ∧ q2 r = true)) :
    (t.filter q0 ++ t.filter q1 ++ t.filter q2).Perm t := by
  induction t with
  | nil => simp
  | cons r rs ih =>
    have ihh := ih (fun x hx => hex x (List.mem_cons_of_mem r hx))
    rcases hex r (List.mem_cons_self r rs) with
      ⟨h0, h1, h2⟩ | ⟨h0, h1, h2⟩ | ⟨h0, h1, h2⟩
    · rw [List.filter_cons_of_pos h0, List.filter_cons_of_neg (by simp [h1]),
        List.filter_cons_of_neg (by simp [h2])]
      simp only [List.cons_append]
      exact ihh.cons r
    · rw [List.filter_cons_of_neg (by simp [h0]), List.filter_cons_of_pos h1,
        List.filter_cons_of_neg (by simp [h2])]
      have hstep : (rs.filter q0 ++ (r :: rs.filter q1) ++ rs.filter q2).Perm
          (r :: (rs.filter q0 ++ rs.filter q1 ++ rs.filter q2)) := by
        rw [List.append_assoc, List.cons_append]
        refine (List.perm_middle).trans ?_
        rw [← List.append_assoc]
      exact hstep.trans (ihh.cons r)
    · rw [List.filter_cons_of_neg (by simp [h0]),
        List.filter_cons_of_neg (by simp [h1]), List.filter_cons_of_pos h2]
      exact (List.perm_middle).trans (ihh.cons r)

end SplitLemmas

/-- C1: on success, the three outputs of `SplitGuaranteeingAllClassesPerSplit`
form an exact partition of the input's rows (their concatenation is a
permutation of the input: no overlap, no omission, counted with
multiplicity), every activity code present in the input appears with at least
one row in each of the three splits, and no user id appears in rows of more
than one split. -/
theorem spec_C1 (p0 p1 p2 : Nat) (t tr va te : List Row)
    (h : SplitGuaranteeingAllClassesPerSplit p0 p1 p2 t = .ok (tr, va, te)) :
    (tr ++ va ++ te).Perm t ∧
    (∀ r : Row, ¬(r ∈ tr ∧ r ∈ va) ∧ ¬(r ∈ tr ∧ r ∈ te) ∧
      ¬(r ∈ va ∧ r ∈ te)) ∧
    (∀ c ∈ codesOf t,
      (∃ r ∈ tr, r.activity_code = c) ∧ (∃ r ∈ va, r.activity_code = c) ∧
      (∃ r ∈ te, r.activity_code = c)) ∧
    (∀ u : Nat,
      ¬((∃ r ∈ tr, r.user = u) ∧ (∃ r ∈ va, r.user = u)) ∧
      ¬((∃ r ∈ tr, r.user = u) ∧ (∃ r ∈ te, r.user = u)) ∧
      ¬((∃ r ∈ va, r.user = u) ∧ (∃ r ∈ te, r.user = u))) := by
  unfold SplitGuaranteeingAllClassesPerSplit at h
  split at h
  · cases h
  · split at h
    · cases h
    · rename_i st hcover
      split at h
      rename_i u0 u1 u2 hfill
      cases h
      obtain ⟨hcperm, hc0, hc1, hc2, hcov⟩ :=
        coverClasses_spec t _ _ _ hcover
      obtain ⟨hfperm, hf0, hf1, hf2⟩ :=
        fillUsers_spec t p0 p1 p2 st.un st.s0 st.s1 st.s2 u0 u1 u2 hfill
      have hcperm' : (st.s0 ++ st.s1 ++ st.s2 ++ st.un).Perm (usersOf t) := by
        simpa using hcperm
      have hperm : (u0 ++ u1 ++ u2).Perm (usersOf t) :=
        hfperm.trans hcperm'
      have hnodup : (u0 ++ u1 ++ u2).Nodup :=
        hperm.symm.nodup (List.nodup_dedup _)
      obtain ⟨h01n, h2n, hd012⟩ := List.nodup_append.mp hnodup
      obtain ⟨h0n, h1n, d01⟩ := List.nodup_append.mp h01n
      obtain ⟨d02, d12⟩ := List.disjoint_append_left.mp hd012
      have huser_mem : ∀ r ∈ t, r.user ∈ u0 ++ u1 ++ u2 := fun r hr =>
        hperm.mem_iff.mpr (mem_usersOf.mpr ⟨r, hr, rfl⟩)
      refine ⟨?_, ?_, ?_, ?_⟩
      · apply filter_partition3
        intro r hr
        rcases List.mem_append.mp (huser_mem r hr) with hm | hm2
        · rcases List.mem_append.mp hm with hm0 | hm1
          · refine Or.inl ⟨?_, ?_, ?_⟩
            · simpa using hm0
            · simpa using fun hc => d01 hm0 hc
            · simpa using fun hc => d02 hm0 hc
          · refine Or.inr (Or.inl ⟨?_, ?_, ?_⟩)
            · simpa using fun hc => d01 hc hm1
            · simpa using hm1
            · simpa using fun hc => d12 hm1 hc
        · refine Or.inr (Or.inr ⟨?_, ?_, ?_⟩)
          · simpa using fun hc => d02 hc hm2
          · simpa using fun hc => d12 hc hm2
          · simpa using hm2
      · intro r
        refine ⟨?_, ?_, ?_⟩
        · rintro ⟨hr0, hr1⟩
          exact d01 (by simpa using (List.mem_filter.mp hr0).2)
            (by simpa using (List.mem_filter.mp hr1).2)
        · rintro ⟨hr0, hr2⟩
          exact d02 (by simpa using (List.mem_filter.mp hr0).2)
            (by simpa using (List.mem_filter.mp hr2).2)
        · rintro ⟨hr1, hr2⟩
          exact d12 (by simpa using (List.mem_filter.mp hr1).2)
            (by simpa using (List.mem_filter.mp hr2).2)
      · intro c hc
        have hc' : c ∈ sortByKey (fun d => (classGroup t d).length)
            (codesOf t) :=
          (sortByKey_perm _ _).mem_iff.mpr hc
        obtain ⟨⟨x0, hx0, hx0c⟩, ⟨x1, hx1, hx1c⟩, ⟨x2, hx2, hx2c⟩⟩ :=
          hcov c hc'
        refine ⟨?_, ?_, ?_⟩
        · obtain ⟨r, hrt, hrc, hru⟩ := mem_usersOfCode.mp hx0c
          exact ⟨r, List.mem_filter.mpr
            ⟨hrt, by simp [hru, hf0 hx0]⟩, hrc⟩
        · obtain ⟨r, hrt, hrc, hru⟩ := mem_usersOfCode.mp hx1c
          exact ⟨r, List.mem_filter.mpr
            ⟨hrt, by simp [hru, hf1 hx1]⟩, hrc⟩
        · obtain ⟨r, hrt, hrc, hru⟩ := mem_usersOfCode.mp hx2c
          exact ⟨r, List.mem_filter.mpr
            ⟨hrt, by simp [hru, hf2 hx2]⟩, hrc⟩
      · intro u
        refine ⟨?_, ?_, ?_⟩
        · rintro ⟨⟨r, hr, hru⟩, ⟨r2, hr2, hr2u⟩⟩
          have hm0 : r.user ∈ u0 := by
            simpa using (List.mem_filter.mp hr).2
          have hm1 : r2.user ∈ u1 := by
            simpa using (List.mem_filter.mp hr2).2
          rw [hru] at hm0
          rw [hr2u] at hm1
          exact d01 hm0 hm1
        · rintro ⟨⟨r, hr, hru⟩, ⟨r2, hr2, hr2u⟩⟩
          have hm0 : r.user ∈ u0 := by
            simpa using (List.mem_filter.mp hr).2
          have hm2 : r2.user ∈ u2 := by
            simpa using (List.mem_filter.mp hr2).2
          rw [hru] at hm0
          rw [hr2u] at hm2
          exact d02 hm0 hm2
        · rintro ⟨⟨r, hr, hru⟩, ⟨r2, hr2, hr2u⟩⟩
          have hm1 : r.user ∈ u1 := by
            simpa using (List.mem_filter.mp hr).2
          have hm2 : r2.user ∈ u2 := by
            simpa using (List.mem_filter.mp hr2).2
          rw [hru] at hm1
          rw [hr2u] at hm2
          exact d12 hm1 hm2

/-- C1 witness: a three-user one-class table splits successfully into one
user per split; the concrete split satisfies the partition, class-coverage
and user-exclusivity conclusions. -/
theorem spec_C1_witness :
    SplitGuaranteeingAllClassesPerSplit 70 15 15
        [⟨1, 0, 0⟩, ⟨2, 0, 0⟩, ⟨3, 0, 0⟩]
      = .ok ([⟨1, 0, 0⟩], [⟨2, 0, 0⟩], [⟨3, 0, 0⟩]) ∧
    (([⟨1, 0, 0⟩] ++ [⟨2, 0, 0⟩] ++ [⟨3, 0, 0⟩] : List Row).Perm
        [⟨1, 0, 0⟩, ⟨2, 0, 0⟩, ⟨3, 0, 0⟩] ∧
      (∀ r : Row, ¬(r ∈ ([⟨1, 0, 0⟩] : List Row) ∧
          r ∈ ([⟨2, 0, 0⟩] : List Row)) ∧
        ¬(r ∈ ([⟨1, 0, 0⟩] : List Row) ∧ r ∈ ([⟨3, 0, 0⟩] : List Row)) ∧
        ¬(r ∈ ([⟨2, 0, 0⟩] : List Row) ∧ r ∈ ([⟨3, 0, 0⟩] : List Row))) ∧
      (∀ c ∈ codesOf [⟨1, 0, 0⟩, ⟨2, 0, 0⟩, ⟨3, 0, 0⟩],
        (∃ r ∈ ([⟨1, 0, 0⟩] : List Row), r.activity_code = c) ∧
        (∃ r ∈ ([⟨2, 0, 0⟩] : List Row), r.activity_code = c) ∧
        (∃ r ∈ ([⟨3, 0, 0⟩] : List Row), r.activity_code = c)) ∧
      (∀ u : Nat,
        ¬((∃ r ∈ ([⟨1, 0, 0⟩] : List Row), r.user = u) ∧
          (∃ r ∈ ([⟨2, 0, 0⟩] : List Row), r.user = u)) ∧
        ¬((∃ r ∈ ([⟨1, 0, 0⟩] : List Row), r.user = u) ∧
          (∃ r ∈ ([⟨3, 0, 0⟩] : List Row), r.user = u)) ∧
        ¬((∃ r ∈ ([⟨2, 0, 0⟩] : List Row), r.user = u) ∧
          (∃ r ∈ ([⟨3, 0, 0⟩] : List Row), r.user = u)))) := by
  have h : SplitGuaranteeingAllClassesPerSplit 70 15 15
      [⟨1, 0, 0⟩, ⟨2, 0, 0⟩, ⟨3, 0, 0⟩]
      = .ok ([⟨1, 0, 0⟩], [⟨2, 0, 0⟩], [⟨3, 0, 0⟩]) := by decide
  exact ⟨h, spec_C1 70 15 15 _ _ _ _ h⟩

/-- C3: when some activity code present in the input has fewer than three
distinct users, `SplitGuaranteeingAllClassesPerSplit` raises
`UnsatisfiableSplitError` instead of producing splits. -/
theorem spec_C3 (p0 p1 p2 : Nat) (t : List Row) (c : Int)
    (hc : c ∈ codesOf t) (h : (usersOfCode t c).length < 3) :
    SplitGuaranteeingAllClassesPerSplit p0 p1 p2 t
      = .error .unsatisfiableSplit := by
  unfold SplitGuaranteeingAllClassesPerSplit
  rw [if_pos]
  exact List.any_eq_true.mpr ⟨c, hc, by simpa using h⟩

/-- C3 witness: a dataset in which one user holds the only five rows of class
5 (so the class has one distinct user, fewer than the three splits) makes the
splitter raise `UnsatisfiableSplitError`. -/
theorem spec_C3_witness :
    (5 : Int) ∈ codesOf
      [⟨1, 0, 5⟩, ⟨1, 1, 5⟩, ⟨1, 2, 5⟩, ⟨1, 3, 5⟩, ⟨1, 4, 5⟩] ∧
    (usersOfCode
      [⟨1, 0, 5⟩, ⟨1, 1, 5⟩, ⟨1, 2, 5⟩, ⟨1, 3, 5⟩, ⟨1, 4, 5⟩] 5).length < 3 ∧
    SplitGuaranteeingAllClassesPerSplit 70 15 15
        [⟨1, 0, 5⟩, ⟨1, 1, 5⟩, ⟨1, 2, 5⟩, ⟨1, 3, 5⟩, ⟨1, 4, 5⟩]
      = .error .unsatisfiableSplit :=
  ⟨by decide, by decide,
    spec_C3 70 15 15 _ 5 (by decide) (by decide)⟩

end DAGHAR
